import Mathlib

/-!
Verification of the SolidsPy assembly routines (src/solidspy/assemutil.py).

The embedding works over exact integer stiffness values (the claims treat
stiffness values as exact numbers); numpy arrays become Lean lists, the
dense global matrix becomes a total function on integer indices, and the
per-element stiffness kernels (which live outside this file's source, in
solidspy.uelutil) stay abstract: they are the pluggable capabilities the
spec describes, passed in as arguments.
-/

/-- One row of the node table: columns 1,2 are the coordinates and
columns 3,4 the two boundary-condition flags (column 0, the node id,
equals the row position and is never read by the assembly code). -/
structure Node where
  x : Int
  y : Int
  bc0 : Int
  bc1 : Int
  deriving Repr, DecidableEq

instance : Inhabited Node := ⟨⟨0, 0, 0, 0⟩⟩

/-- One row of the element table: column 1 is the type code, column 2 the
material index, and columns 3.. the connectivity (global node ids). -/
structure Element where
  ty : Int
  matIdx : Nat
  conn : List Nat
  deriving Repr, DecidableEq

instance : Inhabited Element := ⟨⟨0, 0, []⟩⟩

/-- One row of the load table: node id and the two load components. -/
structure Load where
  node : Nat
  fx : Int
  fy : Int
  deriving Repr, DecidableEq

/-- Modelled from the spec: femutil.eletype is not part of the given
source; the spec describes it as a fixed lookup from the element type
code to (dof count, node count, integration point count) with two DOFs
per node, covering the six canonical types keyed 1, 2, 3, 5, 6, 7 in the
registry ELEM_ID (4-node quad, 6-node triangle, 3-node triangle, 2-node
spring, 2-node truss, 2-node beam); an unknown code is a fatal error,
modelled as none. -/
def eletype (iet : Int) : Option (Nat × Nat × Nat) :=
  if iet = 1 then some (8, 4, 4)
  else if iet = 2 then some (12, 6, 7)
  else if iet = 3 then some (6, 3, 7)
  else if iet = 5 then some (4, 2, 3)
  else if iet = 6 then some (4, 2, 3)
  else if iet = 7 then some (4, 2, 3)
  else none

theorem eletype_nnodes_le (iet : Int) (ndof nnodes ngpts : Nat)
    (h : eletype iet = some (ndof, nnodes, ngpts)) : nnodes ≤ 9 := by
  unfold eletype at h
  split_ifs at h <;> simp_all <;> omega

/-- The flattened list of boundary-condition flags in scan order
(node-index order, and within a node DOF 0 before DOF 1): exactly the
order of the nested loops of eqcounter. -/
def nodeFlags : List Node → List Int
  | [] => []
  | nd :: rest => nd.bc0 :: nd.bc1 :: nodeFlags rest

/-- The second pass of eqcounter over the flattened flag list: a flag 0
receives the next equation index (the running counter), any other flag
value is left in place unchanged. -/
def assignFlat : Nat → List Int → Nat × List Int
  | n, [] => (n, [])
  | n, f :: rest =>
      if f = 0 then
        ((assignFlat (n + 1) rest).1, (n : Int) :: (assignFlat (n + 1) rest).2)
      else
        ((assignFlat n rest).1, f :: (assignFlat n rest).2)

/-- Regroups the flattened two-flags-per-node list into rows of the
nnodes-by-2 IBC array. -/
def pairup : List Int → List (Int × Int)
  | a :: b :: rest => (a, b) :: pairup rest
  | _ => []

/-- Embedding of assemutil.eqcounter: copy the two boundary-condition
flags of every node into IBC, then scan IBC in node-then-DOF order and
replace every zero entry by the next equation index. -/
def eqcounter (nodes : List Node) : Nat × List (Int × Int) :=
  ((assignFlat 0 (nodeFlags nodes)).1,
   pairup (assignFlat 0 (nodeFlags nodes)).2)

/-- Number of free DOFs: flags equal to zero, in the flattened list. -/
def countFree : List Int → Nat
  | [] => 0
  | f :: rest => (if f = 0 then 1 else 0) + countFree rest

/-- The assigned entries at the positions whose original flag is zero,
kept in scan order. -/
def freeSlotsFlat : List Int → List Int → List Int
  | f :: fs, e :: es => (if f = 0 then [e] else []) ++ freeSlotsFlat fs es
  | _, _ => []

theorem assignFlat_length (n : Nat) (fl : List Int) :
    (assignFlat n fl).2.length = fl.length := by
  induction fl generalizing n with
  | nil => rfl
  | cons f rest ih =>
      by_cases h : f = 0 <;> simp [assignFlat, h, ih]

theorem assignFlat_count (n : Nat) (fl : List Int) :
    (assignFlat n fl).1 = n + countFree fl := by
  induction fl generalizing n with
  | nil => simp [assignFlat, countFree]
  | cons f rest ih =>
      by_cases h : f = 0 <;> simp [assignFlat, countFree, h, ih] <;> omega

theorem assignFlat_freeSlots (n : Nat) (fl : List Int) :
    freeSlotsFlat fl (assignFlat n fl).2
      = (List.range' n (countFree fl)).map (fun k => (k : Int)) := by
  induction fl generalizing n with
  | nil => simp [assignFlat, freeSlotsFlat, countFree]
  | cons f rest ih =>
      by_cases h : f = 0
      · have hc : countFree (f :: rest) = countFree rest + 1 := by
          simp [countFree, h, Nat.add_comm]
        rw [hc, List.range'_succ,
          show (assignFlat n (f :: rest)).2
              = (n : Int) :: (assignFlat (n + 1) rest).2 from by
            simp [assignFlat, h]]
        simp [freeSlotsFlat, h, ih]
      · have hc : countFree (f :: rest) = countFree rest := by
          simp [countFree, h]
        rw [hc,
          show (assignFlat n (f :: rest)).2 = f :: (assignFlat n rest).2 from by
            simp [assignFlat, h]]
        simp [freeSlotsFlat, h, ih]

theorem assignFlat_constrained (n : Nat) (fl : List Int) (k : Nat)
    (h : fl.getD k 0 ≠ 0) :
    (assignFlat n fl).2.getD k 0 = fl.getD k 0 := by
  induction fl generalizing n k with
  | nil => simp [assignFlat]
  | cons f rest ih =>
      cases k with
      | zero =>
          simp only [List.getD_cons_zero] at h ⊢
          simp [assignFlat, h]
      | succ k =>
          simp only [List.getD_cons_succ] at h ⊢
          by_cases hf : f = 0
          · rw [show (assignFlat n (f :: rest)).2
                  = (n : Int) :: (assignFlat (n + 1) rest).2 from by
              simp [assignFlat, hf]]
            rw [List.getD_cons_succ]
            exact ih (n + 1) k h
          · rw [show (assignFlat n (f :: rest)).2 = f :: (assignFlat n rest).2 from by
              simp [assignFlat, hf]]
            rw [List.getD_cons_succ]
            exact ih n k h

/-- Reads component l of row i of a two-column integer array such as IBC. -/
def ibcGet (ibc : List (Int × Int)) (i l : Nat) : Int :=
  if l = 0 then (ibc.getD i (0, 0)).1 else (ibc.getD i (0, 0)).2

/-- The original boundary-condition flag of component l at node i. -/
def flagAt (nodes : List Node) (i l : Nat) : Int :=
  if l = 0 then (nodes.getD i default).bc0 else (nodes.getD i default).bc1

theorem nodeFlags_length (nodes : List Node) :
    (nodeFlags nodes).length = 2 * nodes.length := by
  induction nodes with
  | nil => rfl
  | cons nd rest ih => simp [nodeFlags, ih]; omega

theorem nodeFlags_getD (nodes : List Node) (i l : Nat) (hl : l < 2) :
    (nodeFlags nodes).getD (2 * i + l) 0 = flagAt nodes i l := by
  induction nodes generalizing i with
  | nil =>
      interval_cases l <;> rfl
  | cons nd rest ih =>
      cases i with
      | zero => interval_cases l <;> simp [nodeFlags, flagAt]
      | succ i =>
          have h2 : 2 * (i + 1) + l = (2 * i + l) + 1 + 1 := by omega
          rw [h2]
          simp only [nodeFlags, List.getD_cons_succ]
          rw [ih i]
          interval_cases l <;> simp [flagAt]

theorem pairup_getD (fl : List Int) (k : Nat)
    (h : 2 * k + 1 < fl.length ∨ fl.length ≤ 2 * k) :
    (pairup fl).getD k (0, 0) = (fl.getD (2 * k) 0, fl.getD (2 * k + 1) 0) := by
  induction k generalizing fl with
  | zero =>
      match fl with
      | [] => rfl
      | [a] => simp at h
      | a :: b :: rest => rfl
  | succ k ih =>
      match fl with
      | [] => rfl
      | [a] =>
          have h1 : [a].getD (2 * (k + 1)) 0 = 0 := by
            apply List.getD_eq_default
            simp
            omega
          have h2 : [a].getD (2 * (k + 1) + 1) 0 = 0 := by
            apply List.getD_eq_default
            simp
          show ((0 : Int), (0 : Int))
              = ([a].getD (2 * (k + 1)) 0, [a].getD (2 * (k + 1) + 1) 0)
          rw [h1, h2]
      | a :: b :: rest =>
          have h2 : 2 * (k + 1) = (2 * k) + 1 + 1 := by omega
          simp only [pairup, h2, List.getD_cons_succ]
          apply ih
          simp at h
          omega

theorem getD_set_self {α : Type} (l : List α) (i : Nat) (a d : α)
    (h : i < l.length) : (l.set i a).getD i d = a := by
  simp [List.getD, List.getElem?_set_eq_of_lt a h]

theorem getD_set_other {α : Type} (l : List α) (i j : Nat) (a d : α)
    (h : i ≠ j) : (l.set i a).getD j d = l.getD j d := by
  simp [List.getD, List.getElem?_set_ne h]

theorem getD_map_lt {α β : Type} (f : α → β) (l : List α) (i : Nat)
    (dA : α) (dB : β) (h : i < l.length) :
    (l.map f).getD i dB = f (l.getD i dA) := by
  rw [List.getD_eq_getElem _ _ (by simpa using h), List.getD_eq_getElem _ _ h,
    List.getElem_map]

/-- One pass of the element loop of assemutil.DME for a single element:
starting from the zero-filled width-9 IELCON row and width-18 DME row,
iteration j stores the j-th connected node id in IELCON slot j and the
two IBC entries of that node in DME slots 2j and 2j+1. -/
def dmeRowAux (ibc : List (Int × Int)) (conn : List Nat) (nnodes : Nat) :
    List Nat × List Int :=
  (List.range nnodes).foldl
    (fun rows j =>
      (rows.1.set j (conn.getD j 0),
       (rows.2.set (2 * j) (ibcGet ibc (conn.getD j 0) 0)).set (2 * j + 1)
         (ibcGet ibc (conn.getD j 0) 1)))
    (List.replicate 9 0, List.replicate 18 0)

theorem dmeRowAux_succ (ibc : List (Int × Int)) (conn : List Nat) (n : Nat) :
    dmeRowAux ibc conn (n + 1)
      = ((dmeRowAux ibc conn n).1.set n (conn.getD n 0),
         ((dmeRowAux ibc conn n).2.set (2 * n) (ibcGet ibc (conn.getD n 0) 0)).set
           (2 * n + 1) (ibcGet ibc (conn.getD n 0) 1)) := by
  unfold dmeRowAux
  rw [List.range_succ, List.foldl_append]
  rfl

theorem dmeRowAux_length (ibc : List (Int × Int)) (conn : List Nat) (nnodes : Nat) :
    (dmeRowAux ibc conn nnodes).1.length = 9
    ∧ (dmeRowAux ibc conn nnodes).2.length = 18 := by
  induction nnodes with
  | zero => exact ⟨rfl, rfl⟩
  | succ n ih => rw [dmeRowAux_succ]; simp [List.length_set, ih.1, ih.2]

theorem getD_replicate_self {α : Type} (n j : Nat) (d : α) :
    (List.replicate n d).getD j d = d := by
  rcases Nat.lt_or_ge j n with h | h
  · rw [List.getD_eq_getElem _ _ (by simpa using h)]
    simp
  · rw [List.getD_eq_default _ _ (by simpa using h)]

theorem dmeRowAux_fst_getD (ibc : List (Int × Int)) (conn : List Nat)
    (nnodes : Nat) (h9 : nnodes ≤ 9) (j : Nat) :
    (dmeRowAux ibc conn nnodes).1.getD j 0
      = if j < nnodes then conn.getD j 0 else 0 := by
  induction nnodes with
  | zero =>
      rw [show (dmeRowAux ibc conn 0).1 = List.replicate 9 0 from rfl,
        getD_replicate_self]
      simp
  | succ n ih =>
      rw [dmeRowAux_succ]
      show ((dmeRowAux ibc conn n).1.set n (conn.getD n 0)).getD j 0 = _
      by_cases hj : j = n
      · subst hj
        rw [getD_set_self _ _ _ _ (by rw [(dmeRowAux_length ibc conn j).1]; omega)]
        simp
      · rw [getD_set_other _ _ _ _ _ (fun he => hj he.symm)]
        rw [ih (by omega)]
        by_cases hlt : j < n
        · simp [hlt, show j < n + 1 from by omega]
        · simp [hlt, show ¬ j < n + 1 from by omega]

theorem dmeRowAux_snd_getD (ibc : List (Int × Int)) (conn : List Nat)
    (nnodes : Nat) (h9 : nnodes ≤ 9) (d : Nat) :
    (dmeRowAux ibc conn nnodes).2.getD d 0
      = if d < 2 * nnodes then ibcGet ibc (conn.getD (d / 2) 0) (d % 2) else 0 := by
  induction nnodes with
  | zero =>
      rw [show (dmeRowAux ibc conn 0).2 = List.replicate 18 0 from rfl,
        getD_replicate_self]
      simp
  | succ n ih =>
      rw [dmeRowAux_succ]
      show (((dmeRowAux ibc conn n).2.set (2 * n) (ibcGet ibc (conn.getD n 0) 0)).set
           (2 * n + 1) (ibcGet ibc (conn.getD n 0) 1)).getD d 0 = _
      by_cases hd1 : d = 2 * n + 1
      · subst hd1
        rw [getD_set_self _ _ _ _ (by
          rw [List.length_set, (dmeRowAux_length ibc conn n).2]; omega)]
        rw [if_pos (by omega)]
        have hdiv : (2 * n + 1) / 2 = n := by omega
        have hmod : (2 * n + 1) % 2 = 1 := by omega
        rw [hdiv, hmod]
      · rw [getD_set_other _ _ _ _ _ (fun he => hd1 he.symm)]
        by_cases hd2 : d = 2 * n
        · subst hd2
          rw [getD_set_self _ _ _ _ (by rw [(dmeRowAux_length ibc conn n).2]; omega)]
          rw [if_pos (by omega)]
          have hdiv : 2 * n / 2 = n := by omega
          have hmod : 2 * n % 2 = 0 := by omega
          rw [hdiv, hmod]
        · rw [getD_set_other _ _ _ _ _ (fun he => hd2 he.symm)]
          rw [ih (by omega)]
          by_cases hlt : d < 2 * n
          · simp [hlt, show d < 2 * (n + 1) from by omega]
          · simp [hlt, show ¬ d < 2 * (n + 1) from by omega]

/-- The element loop of assemutil.DME: for each element in order, the
type code is resolved through eletype (an unknown code aborts the loop
exactly as the Python lookup raises) and the IELCON and DME rows of the
element are filled by dmeRowAux. -/
def DME_rows (ibc : List (Int × Int)) :
    List Element → Option (List (List Nat × List Int))
  | [] => some []
  | e :: rest =>
      (eletype e.ty).bind fun t =>
        (DME_rows ibc rest).map fun rows => dmeRowAux ibc e.conn t.2.1 :: rows

/-- Embedding of assemutil.DME: runs eqcounter on the node table, then
fills the assembly operator row of every element; returns the DME table,
the IBC array and neq (IELCON stays internal, see IELCON_op). -/
def DME_op (nodes : List Node) (elements : List Element) :
    Option (List (List Int) × List (Int × Int) × Nat) :=
  (DME_rows (eqcounter nodes).2 elements).map fun rows =>
    (rows.map (fun r => r.2), (eqcounter nodes).2, (eqcounter nodes).1)

/-- The IELCON connectivity table that assemutil.DME builds internally
while filling the assembly operator. -/
def IELCON_op (nodes : List Node) (elements : List Element) :
    Option (List (List Nat)) :=
  (DME_rows (eqcounter nodes).2 elements).map fun rows => rows.map (fun r => r.1)

theorem DME_rows_length (ibc : List (Int × Int)) (elements : List Element)
    (rows : List (List Nat × List Int)) (h : DME_rows ibc elements = some rows) :
    rows.length = elements.length := by
  induction elements generalizing rows with
  | nil =>
      simp only [DME_rows, Option.some.injEq] at h
      subst h
      rfl
  | cons e rest ih =>
      simp only [DME_rows] at h
      cases het : eletype e.ty with
      | none => rw [het] at h; simp at h
      | some t =>
          rw [het] at h
          cases hrest : DME_rows ibc rest with
          | none => rw [hrest] at h; simp at h
          | some rows0 =>
              rw [hrest] at h
              simp at h
              subst h
              simp [ih rows0 hrest]

theorem DME_rows_getD (ibc : List (Int × Int)) (elements : List Element)
    (rows : List (List Nat × List Int)) (h : DME_rows ibc elements = some rows)
    (el : Nat) (hel : el < elements.length)
    (ndof nnodes ngpts : Nat)
    (hty : eletype ((elements.getD el default).ty) = some (ndof, nnodes, ngpts)) :
    rows.getD el ([], [])
      = dmeRowAux ibc ((elements.getD el default).conn) nnodes := by
  induction elements generalizing rows el with
  | nil => simp at hel
  | cons e rest ih =>
      simp only [DME_rows] at h
      cases het : eletype e.ty with
      | none => rw [het] at h; simp at h
      | some t =>
          rw [het] at h
          cases hrest : DME_rows ibc rest with
          | none => rw [hrest] at h; simp at h
          | some rows0 =>
              rw [hrest] at h
              simp at h
              subst h
              cases el with
              | zero =>
                  simp only [List.getD_cons_zero]
                  simp only [List.getD_cons_zero] at hty
                  rw [het] at hty
                  obtain ⟨nd0, nn0, ng0⟩ := t
                  simp at hty
                  rw [hty.2.1]
              | succ el =>
                  simp only [List.getD_cons_succ]
                  simp only [List.getD_cons_succ] at hty
                  exact ih rows0 hrest el (by simpa using hel) hty

theorem DME_op_spec (nodes : List Node) (elements : List Element)
    (dmeTab : List (List Int)) (ibc : List (Int × Int)) (neq : Nat)
    (h : DME_op nodes elements = some (dmeTab, ibc, neq)) :
    ibc = (eqcounter nodes).2 ∧ neq = (eqcounter nodes).1
    ∧ dmeTab.length = elements.length
    ∧ ∀ el, el < elements.length →
        ∀ ndof nnodes ngpts,
          eletype ((elements.getD el default).ty) = some (ndof, nnodes, ngpts) →
          dmeTab.getD el []
            = (dmeRowAux (eqcounter nodes).2 ((elements.getD el default).conn)
                nnodes).2 := by
  unfold DME_op at h
  cases hrows : DME_rows (eqcounter nodes).2 elements with
  | none => rw [hrows] at h; simp at h
  | some rows =>
      rw [hrows] at h
      simp at h
      obtain ⟨h1, h2, h3⟩ := h
      refine ⟨h2.symm, h3.symm, ?_, ?_⟩
      · rw [← h1]
        simp [DME_rows_length _ _ _ hrows]
      · intro el hel ndof nnodes ngpts hty
        rw [← h1]
        have hlen : el < rows.length := by
          rw [DME_rows_length _ _ _ hrows]
          exact hel
        rw [getD_map_lt _ _ _ ([], []) _ hlen]
        rw [DME_rows_getD _ _ _ hrows el hel _ _ _ hty]

theorem IELCON_op_spec (nodes : List Node) (elements : List Element)
    (ielTab : List (List Nat)) (h : IELCON_op nodes elements = some ielTab) :
    ielTab.length = elements.length
    ∧ ∀ el, el < elements.length →
        ∀ ndof nnodes ngpts,
          eletype ((elements.getD el default).ty) = some (ndof, nnodes, ngpts) →
          ielTab.getD el []
            = (dmeRowAux (eqcounter nodes).2 ((elements.getD el default).conn)
                nnodes).1 := by
  unfold IELCON_op at h
  cases hrows : DME_rows (eqcounter nodes).2 elements with
  | none => rw [hrows] at h; simp at h
  | some rows =>
      rw [hrows] at h
      simp at h
      refine ⟨?_, ?_⟩
      · rw [← h]
        simp [DME_rows_length _ _ _ hrows]
      · intro el hel ndof nnodes ngpts hty
        rw [← h]
        have hlen : el < rows.length := by
          rw [DME_rows_length _ _ _ hrows]
          exact hel
        rw [getD_map_lt _ _ _ ([], []) _ hlen]
        rw [DME_rows_getD _ _ _ hrows el hel _ _ _ hty]

/-- A registry of stiffness kernels: the type code selects a kernel that
maps the element coordinate rows and the material parameter row to the
local stiffness matrix (the ELEM_ID table of uelutil kernels, which are
outside the assembly source and stay abstract). -/
abbrev RegKernel := Int → List (Int × Int) → List Int → List (List Int)

/-- An override kernel (the optional uel argument): returns the triple
(local stiffness matrix, dof count, type code). -/
abbrev UelKernel := List (Int × Int) → List Int → List (List Int) × Nat × Int

/-- Embedding of assemutil.retriever: resolve the element type through
eletype, gather the material profile row and the coordinates of the
connected nodes in connectivity order (nnodes rows), then either
dispatch the registry kernel for the type code, keeping the eletype dof
count, or, when an override kernel uel is supplied, call it for this
element and return its (matrix, dof count, type code) triple unchanged.
The eletype resolution precedes the override check, so an unknown type
code fails (none) even when uel is supplied. -/
def retriever (reg : RegKernel) (elements : List Element)
    (mats : List (List Int)) (nodes : List Node) (i : Nat)
    (uel : Option UelKernel) : Option (List (List Int) × Nat × Int) :=
  match eletype ((elements.getD i default).ty) with
  | none => none
  | some (ndof, nnodes, _) =>
      let params := mats.getD (elements.getD i default).matIdx []
      let elcoor := (List.range nnodes).map fun j =>
        ((nodes.getD ((elements.getD i default).conn.getD j 0) default).x,
         (nodes.getD ((elements.getD i default).conn.getD j 0) default).y)
      match uel with
      | none => some (reg (elements.getD i default).ty elcoor params, ndof,
          (elements.getD i default).ty)
      | some f => some (f elcoor params)

/-- The coordinate rows retriever hands the kernel. -/
def elcoorOf (nodes : List Node) (e : Element) (nnodes : Nat) :
    List (Int × Int) :=
  (List.range nnodes).map fun j =>
    ((nodes.getD (e.conn.getD j 0) default).x,
     (nodes.getD (e.conn.getD j 0) default).y)

/-- The dense global stiffness matrix, modelled as a total function on
integer indices (the numpy array KG of shape neq x neq; all index pairs
the claims quantify over lie in the array's range, where the function
model and the array agree entry by entry). -/
abbrev GMat := Int → Int → Int

def zeroGMat : GMat := fun _ _ => 0

/-- Scatter-add of the value v into entry (r, c): accumulate, never
overwrite. -/
def addAt (M : GMat) (r c v : Int) : GMat :=
  fun x y => if x = r ∧ y = c then M x y + v else M x y

/-- The nested scatter loops of dense_assem for one element: a local row
whose operator entry is -1 is skipped, otherwise every local column
whose operator entry is not -1 accumulates kloc[row][col] into the
global entry addressed by the two operator entries. -/
def scatterElem (dme : List Int) (kloc : List (List Int)) (ndof : Nat)
    (M : GMat) : GMat :=
  (List.range ndof).foldl
    (fun M1 row =>
      if dme.getD row 0 = -1 then M1
      else
        (List.range ndof).foldl
          (fun M2 col =>
            if dme.getD col 0 = -1 then M2
            else addAt M2 (dme.getD row 0) (dme.getD col 0)
              ((kloc.getD row []).getD col 0))
          M1)
    M

/-- The nested loops of sparse_assem for one element: every non-skipped
(row, col, value) triple is appended to the running coordinate lists,
modelled as a single list of triples. -/
def elemTriples (dme : List Int) (kloc : List (List Int)) (ndof : Nat)
    (acc : List (Int × Int × Int)) : List (Int × Int × Int) :=
  (List.range ndof).foldl
    (fun a1 row =>
      if dme.getD row 0 = -1 then a1
      else
        (List.range ndof).foldl
          (fun a2 col =>
            if dme.getD col 0 = -1 then a2
            else a2 ++ [(dme.getD row 0, dme.getD col 0,
              (kloc.getD row []).getD col 0)])
          a1)
    acc

/-- The projection of the retriever output both assemblers use: the
local stiffness matrix and the dof count of element i. -/
def retrK (reg : RegKernel) (elements : List Element) (mats : List (List Int))
    (nodes : List Node) (uel : Option UelKernel) (i : Nat) :
    Option (List (List Int) × Nat) :=
  (retriever reg elements mats nodes i uel).map fun t => (t.1, t.2.1)

/-- The element loop of dense_assem over an explicit list of element
indices (the source iterates over range(nels); the explicit list lets
the processing order be stated). Each element's operator row is sliced
to the retrieved dof count before the scatter; a failed retrieval
aborts the assembly. -/
def denseLoop (retr : Nat → Option (List (List Int) × Nat))
    (dmeTab : List (List Int)) : List Nat → GMat → Option GMat
  | [], M => some M
  | el :: rest, M =>
      match retr el with
      | none => none
      | some kn =>
          denseLoop retr dmeTab rest
            (scatterElem ((dmeTab.getD el []).take kn.2) kn.1 kn.2 M)

/-- Embedding of assemutil.dense_assem; neq is kept as an argument for
interface fidelity (it only sizes the numpy zero array). -/
def dense_assem (reg : RegKernel) (elements : List Element)
    (mats : List (List Int)) (nodes : List Node) (neq : Nat)
    (dmeTab : List (List Int)) (uel : Option UelKernel) : Option GMat :=
  denseLoop (retrK reg elements mats nodes uel) dmeTab
    (List.range elements.length) zeroGMat

/-- The element loop of sparse_assem, accumulating COO triples. -/
def sparseLoop (retr : Nat → Option (List (List Int) × Nat))
    (dmeTab : List (List Int)) :
    List Nat → List (Int × Int × Int) → Option (List (Int × Int × Int))
  | [], acc => some acc
  | el :: rest, acc =>
      match retr el with
      | none => none
      | some kn =>
          sparseLoop retr dmeTab rest
            (elemTriples ((dmeTab.getD el []).take kn.2) kn.1 kn.2 acc)

/-- Embedding of assemutil.sparse_assem up to the final scipy
conversion: the accumulated COO triple list over all elements. -/
def sparse_assem (reg : RegKernel) (elements : List Element)
    (mats : List (List Int)) (nodes : List Node) (neq : Nat)
    (dmeTab : List (List Int)) (uel : Option UelKernel) :
    Option (List (Int × Int × Int)) :=
  sparseLoop (retrK reg elements mats nodes uel) dmeTab
    (List.range elements.length) []

/-- Modelled from the spec: the scipy coo_matrix(...).tocsr() compaction
sums the values of all triples sharing the same (row, col) pair, so
entry (r, c) of the compacted matrix is the sum of the matching values. -/
def cooSum (ts : List (Int × Int × Int)) (r c : Int) : Int :=
  (ts.map fun t => if r = t.1 ∧ c = t.2.1 then t.2.2 else 0).sum

/-- The total contribution of one element to the global entry (x, y):
the sum of kloc[row][col] over the non-skipped local pairs whose
operator entries address (x, y). -/
def elemSum (dme : List Int) (kloc : List (List Int)) (ndof : Nat)
    (x y : Int) : Int :=
  ((List.range ndof).map fun row =>
    if dme.getD row 0 = -1 then 0
    else ((List.range ndof).map fun col =>
      if dme.getD col 0 = -1 then 0
      else if x = dme.getD row 0 ∧ y = dme.getD col 0 then
        (kloc.getD row []).getD col 0
      else 0).sum).sum

def klocOf (retr : Nat → Option (List (List Int) × Nat)) (el : Nat) :
    List (List Int) :=
  ((retr el).getD ([], 0)).1

def ndofOf (retr : Nat → Option (List (List Int) × Nat)) (el : Nat) : Nat :=
  ((retr el).getD ([], 0)).2

/-- The contribution of element el to global entry (x, y), with the
operator row sliced to the retrieved dof count as in both assemblers. -/
def elContrib (retr : Nat → Option (List (List Int) × Nat))
    (dmeTab : List (List Int)) (el : Nat) (x y : Int) : Int :=
  elemSum ((dmeTab.getD el []).take (ndofOf retr el)) (klocOf retr el)
    (ndofOf retr el) x y

theorem scatterCols_apply (dme : List Int) (kloc : List (List Int))
    (row : Nat) (cols : List Nat) (M : GMat) (x y : Int) :
    (cols.foldl
      (fun M2 col =>
        if dme.getD col 0 = -1 then M2
        else addAt M2 (dme.getD row 0) (dme.getD col 0)
          ((kloc.getD row []).getD col 0)) M) x y
    = M x y + (cols.map fun col =>
        if dme.getD col 0 = -1 then 0
        else if x = dme.getD row 0 ∧ y = dme.getD col 0 then
          (kloc.getD row []).getD col 0
        else 0).sum := by
  induction cols generalizing M with
  | nil => simp
  | cons c cs ih =>
      simp only [List.foldl_cons, List.map_cons, List.sum_cons]
      by_cases h : dme.getD c 0 = -1
      · rw [if_pos h, if_pos h, ih]
        omega
      · rw [if_neg h, if_neg h, ih]
        by_cases hxy : x = dme.getD row 0 ∧ y = dme.getD c 0
        · rw [if_pos hxy, show addAt M (dme.getD row 0) (dme.getD c 0)
              ((kloc.getD row []).getD c 0) x y
              = M x y + (kloc.getD row []).getD c 0 from by
            simp [addAt, hxy]]
          omega
        · rw [if_neg hxy, show addAt M (dme.getD row 0) (dme.getD c 0)
              ((kloc.getD row []).getD c 0) x y = M x y from by
            unfold addAt
            rw [if_neg hxy]]
          omega

theorem scatterRows_apply (dme : List Int) (kloc : List (List Int))
    (ndof : Nat) (rows : List Nat) (M : GMat) (x y : Int) :
    (rows.foldl
      (fun M1 row =>
        if dme.getD row 0 = -1 then M1
        else
          (List.range ndof).foldl
            (fun M2 col =>
              if dme.getD col 0 = -1 then M2
              else addAt M2 (dme.getD row 0) (dme.getD col 0)
                ((kloc.getD row []).getD col 0))
            M1) M) x y
    = M x y + (rows.map fun row =>
        if dme.getD row 0 = -1 then 0
        else ((List.range ndof).map fun col =>
          if dme.getD col 0 = -1 then 0
          else if x = dme.getD row 0 ∧ y = dme.getD col 0 then
            (kloc.getD row []).getD col 0
          else 0).sum).sum := by
  induction rows generalizing M with
  | nil => simp
  | cons r rs ih =>
      simp only [List.foldl_cons, List.map_cons, List.sum_cons]
      by_cases h : dme.getD r 0 = -1
      · rw [if_pos h, if_pos h, ih]
        omega
      · rw [if_neg h, if_neg h, ih, scatterCols_apply]
        omega

theorem scatterElem_apply (dme : List Int) (kloc : List (List Int))
    (ndof : Nat) (M : GMat) (x y : Int) :
    scatterElem dme kloc ndof M x y = M x y + elemSum dme kloc ndof x y := by
  unfold scatterElem elemSum
  exact scatterRows_apply dme kloc ndof (List.range ndof) M x y

theorem cooSum_append (ts1 ts2 : List (Int × Int × Int)) (r c : Int) :
    cooSum (ts1 ++ ts2) r c = cooSum ts1 r c + cooSum ts2 r c := by
  simp [cooSum]

theorem triCols_cooSum (dme : List Int) (kloc : List (List Int))
    (row : Nat) (cols : List Nat) (acc : List (Int × Int × Int)) (x y : Int) :
    cooSum (cols.foldl
      (fun a2 col =>
        if dme.getD col 0 = -1 then a2
        else a2 ++ [(dme.getD row 0, dme.getD col 0,
          (kloc.getD row []).getD col 0)]) acc) x y
    = cooSum acc x y + (cols.map fun col =>
        if dme.getD col 0 = -1 then 0
        else if x = dme.getD row 0 ∧ y = dme.getD col 0 then
          (kloc.getD row []).getD col 0
        else 0).sum := by
  induction cols generalizing acc with
  | nil => simp
  | cons c cs ih =>
      simp only [List.foldl_cons, List.map_cons, List.sum_cons]
      by_cases h : dme.getD c 0 = -1
      · rw [if_pos h, if_pos h, ih]
        omega
      · rw [if_neg h, if_neg h, ih, cooSum_append]
        have hsing : cooSum [(dme.getD row 0, dme.getD c 0,
            (kloc.getD row []).getD c 0)] x y
            = if x = dme.getD row 0 ∧ y = dme.getD c 0 then
                (kloc.getD row []).getD c 0
              else 0 := by
          simp [cooSum]
        rw [hsing]
        omega

theorem triRows_cooSum (dme : List Int) (kloc : List (List Int))
    (ndof : Nat) (rows : List Nat) (acc : List (Int × Int × Int)) (x y : Int) :
    cooSum (rows.foldl
      (fun a1 row =>
        if dme.getD row 0 = -1 then a1
        else
          (List.range ndof).foldl
            (fun a2 col =>
              if dme.getD col 0 = -1 then a2
              else a2 ++ [(dme.getD row 0, dme.getD col 0,
                (kloc.getD row []).getD col 0)])
            a1) acc) x y
    = cooSum acc x y + (rows.map fun row =>
        if dme.getD row 0 = -1 then 0
        else ((List.range ndof).map fun col =>
          if dme.getD col 0 = -1 then 0
          else if x = dme.getD row 0 ∧ y = dme.getD col 0 then
            (kloc.getD row []).getD col 0
          else 0).sum).sum := by
  induction rows generalizing acc with
  | nil => simp
  | cons r rs ih =>
      simp only [List.foldl_cons, List.map_cons, List.sum_cons]
      by_cases h : dme.getD r 0 = -1
      · rw [if_pos h, if_pos h, ih]
        omega
      · rw [if_neg h, if_neg h, ih, triCols_cooSum]
        omega

theorem elemTriples_cooSum (dme : List Int) (kloc : List (List Int))
    (ndof : Nat) (acc : List (Int × Int × Int)) (x y : Int) :
    cooSum (elemTriples dme kloc ndof acc) x y
      = cooSum acc x y + elemSum dme kloc ndof x y := by
  unfold elemTriples elemSum
  exact triRows_cooSum dme kloc ndof (List.range ndof) acc x y

theorem denseLoop_isSome (retr : Nat → Option (List (List Int) × Nat))
    (dmeTab : List (List Int)) (els : List Nat) (M : GMat)
    (h : ∀ el ∈ els, (retr el).isSome = true) :
    (denseLoop retr dmeTab els M).isSome = true := by
  induction els generalizing M with
  | nil => rfl
  | cons el rest ih =>
      obtain ⟨kn, hkn⟩ := Option.isSome_iff_exists.mp (h el (by simp))
      simp only [denseLoop, hkn]
      exact ih _ (fun e he => h e (by simp [he]))

theorem denseLoop_apply (retr : Nat → Option (List (List Int) × Nat))
    (dmeTab : List (List Int)) (els : List Nat) (M : GMat)
    (h : ∀ el ∈ els, (retr el).isSome = true) (x y : Int) :
    ((denseLoop retr dmeTab els M).getD zeroGMat) x y
      = M x y + (els.map fun el => elContrib retr dmeTab el x y).sum := by
  induction els generalizing M with
  | nil => simp [denseLoop]
  | cons el rest ih =>
      obtain ⟨kn, hkn⟩ := Option.isSome_iff_exists.mp (h el (by simp))
      simp only [denseLoop, hkn, List.map_cons, List.sum_cons]
      rw [ih _ (fun e he => h e (by simp [he]))]
      rw [scatterElem_apply]
      have hc : elContrib retr dmeTab el x y
          = elemSum ((dmeTab.getD el []).take kn.2) kn.1 kn.2 x y := by
        unfold elContrib klocOf ndofOf
        rw [hkn]
        simp
      rw [hc]
      omega

theorem sparseLoop_isSome (retr : Nat → Option (List (List Int) × Nat))
    (dmeTab : List (List Int)) (els : List Nat) (acc : List (Int × Int × Int))
    (h : ∀ el ∈ els, (retr el).isSome = true) :
    (sparseLoop retr dmeTab els acc).isSome = true := by
  induction els generalizing acc with
  | nil => rfl
  | cons el rest ih =>
      obtain ⟨kn, hkn⟩ := Option.isSome_iff_exists.mp (h el (by simp))
      simp only [sparseLoop, hkn]
      exact ih _ (fun e he => h e (by simp [he]))

theorem sparseLoop_cooSum (retr : Nat → Option (List (List Int) × Nat))
    (dmeTab : List (List Int)) (els : List Nat) (acc : List (Int × Int × Int))
    (h : ∀ el ∈ els, (retr el).isSome = true) (x y : Int) :
    cooSum ((sparseLoop retr dmeTab els acc).getD []) x y
      = cooSum acc x y + (els.map fun el => elContrib retr dmeTab el x y).sum := by
  induction els generalizing acc with
  | nil => simp [sparseLoop]
  | cons el rest ih =>
      obtain ⟨kn, hkn⟩ := Option.isSome_iff_exists.mp (h el (by simp))
      simp only [sparseLoop, hkn, List.map_cons, List.sum_cons]
      rw [ih _ (fun e he => h e (by simp [he]))]
      rw [elemTriples_cooSum]
      have hc : elContrib retr dmeTab el x y
          = elemSum ((dmeTab.getD el []).take kn.2) kn.1 kn.2 x y := by
        unfold elContrib klocOf ndofOf
        rw [hkn]
        simp
      rw [hc]
      omega

/-- One iteration of the loadasem loop: resolve the two equation indices
of the loaded node; each component whose index is not -1 overwrites that
slot of the right-hand-side vector with the given load value (x first,
then y). The vector is modelled as a total function on integer indices,
like the global matrix. -/
def loadStep (ibc : List (Int × Int)) (R : Int → Int) (ld : Load) :
    Int → Int :=
  let p := ibc.getD ld.node (0, 0)
  let R1 := if p.1 = -1 then R else fun q => if q = p.1 then ld.fx else R q
  if p.2 = -1 then R1 else fun q => if q = p.2 then ld.fy else R1 q

/-- Embedding of assemutil.loadasem: fold the load rows in input order
over the zero vector. neq is kept for interface fidelity (it only sizes
the numpy zero vector). -/
def loadasem (loads : List Load) (ibc : List (Int × Int)) (neq : Nat) :
    Int → Int :=
  loads.foldl (loadStep ibc) fun _ => 0

/-- The sequence of (slot, value) writes the load loop performs, in
order: for each load row, the x component then the y component, each
only when its equation index is not -1. -/
def loadWrites (ibc : List (Int × Int)) : List Load → List (Int × Int)
  | [] => []
  | ld :: rest =>
      ((if (ibc.getD ld.node (0, 0)).1 = -1 then []
        else [((ibc.getD ld.node (0, 0)).1, ld.fx)]) ++
       (if (ibc.getD ld.node (0, 0)).2 = -1 then []
        else [((ibc.getD ld.node (0, 0)).2, ld.fy)])) ++ loadWrites ibc rest

/-- The value left in slot q by a write sequence applied to a base
value: the last write to q wins, base if none touches q. -/
def lastWrite (ws : List (Int × Int)) (q : Int) (base : Int) : Int :=
  ws.foldl (fun v w => if q = w.1 then w.2 else v) base

theorem lastWrite_append (ws1 ws2 : List (Int × Int)) (q base : Int) :
    lastWrite (ws1 ++ ws2) q base = lastWrite ws2 q (lastWrite ws1 q base) := by
  unfold lastWrite
  rw [List.foldl_append]

theorem loadStep_apply (ibc : List (Int × Int)) (R : Int → Int) (ld : Load)
    (q : Int) :
    loadStep ibc R ld q
      = lastWrite ((if (ibc.getD ld.node (0, 0)).1 = -1 then []
          else [((ibc.getD ld.node (0, 0)).1, ld.fx)]) ++
         (if (ibc.getD ld.node (0, 0)).2 = -1 then []
          else [((ibc.getD ld.node (0, 0)).2, ld.fy)])) q (R q) := by
  simp only [loadStep, lastWrite]
  set p := ibc.getD ld.node (0, 0) with hp
  by_cases h1 : p.1 = -1
  · by_cases h2 : p.2 = -1
    · simp [h1, h2]
    · simp [h1, h2]
  · by_cases h2 : p.2 = -1
    · simp [h1, h2]
    · simp [h1, h2]

theorem loadasem_foldl (loads : List Load) (ibc : List (Int × Int))
    (R : Int → Int) (q : Int) :
    (loads.foldl (loadStep ibc) R) q
      = lastWrite (loadWrites ibc loads) q (R q) := by
  induction loads generalizing R with
  | nil => rfl
  | cons ld rest ih =>
      simp only [List.foldl_cons, loadWrites]
      rw [lastWrite_append, ih, loadStep_apply]

/-- C3: for every node table, eqcounter returns neq equal to the number
of nodal DOFs whose boundary-condition flag is zero, and assigns those
DOFs the equation indices 0..neq-1 exactly once each, in node-index
order and, within a node, DOF 0 before DOF 1: the assigned entries at
the free positions, read in scan order, are exactly the list
0, 1, ..., neq-1. -/
theorem eqcounter_free_dofs (nodes : List Node) :
    (eqcounter nodes).1 = countFree (nodeFlags nodes)
    ∧ freeSlotsFlat (nodeFlags nodes) (assignFlat 0 (nodeFlags nodes)).2
        = (List.range (eqcounter nodes).1).map (fun k => (k : Int))
    ∧ (eqcounter nodes).2 = pairup (assignFlat 0 (nodeFlags nodes)).2 := by
  have hneq : (eqcounter nodes).1 = countFree (nodeFlags nodes) := by
    show (assignFlat 0 (nodeFlags nodes)).1 = _
    rw [assignFlat_count]
    omega
  refine ⟨hneq, ?_, rfl⟩
  rw [assignFlat_freeSlots, hneq, List.range_eq_range' (countFree (nodeFlags nodes))]

/-- C7: for every load list, Equation Map and neq, loadasem starts from
the zero vector and, processing the load rows in input order, overwrites
the slot of each component whose equation index is not the sentinel -1
with that row's load value; hence the final value of any slot q is the
value of the last write to q (zero when no row writes q, and constrained
components, whose index is -1, produce no write at all). -/
theorem loadasem_last_write (loads : List Load) (ibc : List (Int × Int))
    (neq : Nat) (q : Int) :
    loadasem loads ibc neq q = lastWrite (loadWrites ibc loads) q 0 := by
  unfold loadasem
  exact loadasem_foldl loads ibc (fun _ => 0) q

/-- C5: for every element whose type code the fixed lookup resolves to
nnodes local nodes, every local node slot j < nnodes and component
l < 2, the assembly operator entry DME[e][2j+l] equals the Equation Map
(IBC) entry at the element's j-th connected node id and column l:
node-major, x-then-y ordering, agreeing with the Equation Map at every
valid local DOF. -/
theorem DME_entry_eq_IBC (nodes : List Node) (elements : List Element)
    (dmeTab : List (List Int)) (ibc : List (Int × Int)) (neq : Nat)
    (h : DME_op nodes elements = some (dmeTab, ibc, neq))
    (el : Nat) (hel : el < elements.length)
    (ndof nnodes ngpts : Nat)
    (hty : eletype ((elements.getD el default).ty) = some (ndof, nnodes, ngpts))
    (j l : Nat) (hj : j < nnodes) (hl : l < 2) :
    (dmeTab.getD el []).getD (2 * j + l) 0
      = ibcGet ibc ((elements.getD el default).conn.getD j 0) l := by
  obtain ⟨hibc, hneq, hlen, hrow⟩ := DME_op_spec _ _ _ _ _ h
  rw [hrow el hel _ _ _ hty,
    dmeRowAux_snd_getD _ _ _ (eletype_nnodes_le _ _ _ _ hty),
    if_pos (show 2 * j + l < 2 * nnodes from by omega)]
  have hdiv : (2 * j + l) / 2 = j := by omega
  have hmod : (2 * j + l) % 2 = l := by omega
  rw [hdiv, hmod, hibc]

/-- C9: for every element, the entries of its assembly operator row
(width 18) beyond its 2*nnodes used slots and the entries of its IELCON
row (width 9) beyond its nnodes used slots are exactly 0, the
zero-initialization value, which coincides with the valid equation
index 0 and differs from the constrained-DOF sentinel -1. -/
theorem DME_trailing_zero (nodes : List Node) (elements : List Element)
    (dmeTab : List (List Int)) (ibc : List (Int × Int)) (neq : Nat)
    (ielTab : List (List Nat))
    (h : DME_op nodes elements = some (dmeTab, ibc, neq))
    (hI : IELCON_op nodes elements = some ielTab)
    (el : Nat) (hel : el < elements.length)
    (ndof nnodes ngpts : Nat)
    (hty : eletype ((elements.getD el default).ty) = some (ndof, nnodes, ngpts)) :
    (∀ d, 2 * nnodes ≤ d → (dmeTab.getD el []).getD d 0 = 0)
    ∧ (∀ j, nnodes ≤ j → (ielTab.getD el []).getD j 0 = 0)
    ∧ (0 : Int) ≠ -1 := by
  obtain ⟨hibc, hneq, hlen, hrow⟩ := DME_op_spec _ _ _ _ _ h
  obtain ⟨hIlen, hIrow⟩ := IELCON_op_spec _ _ _ hI
  refine ⟨?_, ?_, by decide⟩
  · intro d hd
    rw [hrow el hel _ _ _ hty,
      dmeRowAux_snd_getD _ _ _ (eletype_nnodes_le _ _ _ _ hty),
      if_neg (show ¬ d < 2 * nnodes from by omega)]
  · intro j hj
    rw [hIrow el hel _ _ _ hty,
      dmeRowAux_fst_getD _ _ _ (eletype_nnodes_le _ _ _ _ hty),
      if_neg (show ¬ j < nnodes from by omega)]

/-- C10: retriever resolves the element through the fixed eletype lookup
before checking for an override kernel: an unknown type code fails even
when an override is supplied; a known type code makes retriever call the
override with the coordinate rows sized by the registry's node count for
that type and with the element's material profile row, returning the
override's (matrix, dof count, type code) triple unchanged. -/
theorem retriever_override (reg : RegKernel) (elements : List Element)
    (mats : List (List Int)) (nodes : List Node) (i : Nat) (f : UelKernel) :
    (eletype ((elements.getD i default).ty) = none →
      retriever reg elements mats nodes i (some f) = none)
    ∧ (∀ ndof nnodes ngpts,
        eletype ((elements.getD i default).ty) = some (ndof, nnodes, ngpts) →
        retriever reg elements mats nodes i (some f)
            = some (f (elcoorOf nodes (elements.getD i default) nnodes)
                (mats.getD (elements.getD i default).matIdx []))
          ∧ (elcoorOf nodes (elements.getD i default) nnodes).length
              = nnodes) := by
  constructor
  · intro hnone
    unfold retriever
    rw [hnone]
  · intro ndof nnodes ngpts hty
    constructor
    · unfold retriever
      rw [hty]
      rfl
    · unfold elcoorOf
      simp

/-- The accumulation formula of the claim for the dense assembler: the
sum, over every element and every pair of local DOFs whose operator
entries are r and c, of that element's local stiffness value at the
local pair (each element's operator row sliced to its retrieved dof
count, as in the assembler). -/
def claimSum (retr : Nat → Option (List (List Int) × Nat))
    (dmeTab : List (List Int)) (nels : Nat) (r c : Int) : Int :=
  ((List.range nels).map fun el =>
    ((List.range (ndofOf retr el)).map fun a =>
      ((List.range (ndofOf retr el)).map fun b =>
        if r = ((dmeTab.getD el []).take (ndofOf retr el)).getD a 0
            ∧ c = ((dmeTab.getD el []).take (ndofOf retr el)).getD b 0 then
          ((klocOf retr el).getD a []).getD b 0
        else 0).sum).sum).sum

theorem elemSum_nonsentinel (dme : List Int) (kloc : List (List Int))
    (ndof : Nat) (x y : Int) (hx : x ≠ -1) (hy : y ≠ -1) :
    elemSum dme kloc ndof x y
      = ((List.range ndof).map fun a =>
          ((List.range ndof).map fun b =>
            if x = dme.getD a 0 ∧ y = dme.getD b 0 then
              (kloc.getD a []).getD b 0
            else 0).sum).sum := by
  unfold elemSum
  apply congrArg List.sum
  apply List.map_congr_left
  intro a ha
  by_cases hra : dme.getD a 0 = -1
  · rw [if_pos hra]
    symm
    apply List.sum_eq_zero
    intro v hv
    obtain ⟨b, hb, hbv⟩ := List.mem_map.mp hv
    rw [← hbv, if_neg]
    intro hcontra
    exact hx (hra ▸ hcontra.1)
  · rw [if_neg hra]
    apply congrArg List.sum
    apply List.map_congr_left
    intro b hb
    by_cases hrb : dme.getD b 0 = -1
    · rw [if_pos hrb, if_neg]
      intro hcontra
      exact hy (hrb ▸ hcontra.2)
    · rw [if_neg hrb]

/-- C1: when every element's kernel dispatch succeeds, every entry
(r, c) of the dense global matrix with r and c not the sentinel -1
equals the sum, over every element and every pair of local DOFs whose
operator entries are r and c, of that element's local stiffness value at
that local pair; contributions are accumulated (never overwritten),
entries no local pair addresses remain zero (an empty sum), and a local
row or column whose operator entry is the sentinel contributes
nothing. -/
theorem dense_assem_entry (reg : RegKernel) (elements : List Element)
    (mats : List (List Int)) (nodes : List Node) (neq : Nat)
    (dmeTab : List (List Int)) (uel : Option UelKernel) (r c : Int)
    (hsome : ∀ el ∈ List.range elements.length,
      (retrK reg elements mats nodes uel el).isSome = true)
    (hr : r ≠ -1) (hc : c ≠ -1) :
    ((dense_assem reg elements mats nodes neq dmeTab uel).getD zeroGMat) r c
      = claimSum (retrK reg elements mats nodes uel) dmeTab
          elements.length r c := by
  unfold dense_assem
  rw [denseLoop_apply _ _ _ _ hsome]
  have h0 : zeroGMat r c = 0 := rfl
  rw [h0, Int.zero_add]
  unfold claimSum elContrib
  apply congrArg List.sum
  apply List.map_congr_left
  intro el hel
  exact elemSum_nonsentinel _ _ _ _ _ hr hc

/-- C2: for every mesh whose element kernel dispatches all succeed, the
sparse assembler (COO triples whose duplicates are summed by the CSR
compaction) and the dense assembler (scatter-add into the zero matrix)
both succeed and produce element-wise identical global matrices. -/
theorem dense_sparse_agree (reg : RegKernel) (elements : List Element)
    (mats : List (List Int)) (nodes : List Node) (neq : Nat)
    (dmeTab : List (List Int)) (uel : Option UelKernel)
    (hsome : ∀ el ∈ List.range elements.length,
      (retrK reg elements mats nodes uel el).isSome = true) :
    (dense_assem reg elements mats nodes neq dmeTab uel).isSome = true
    ∧ (sparse_assem reg elements mats nodes neq dmeTab uel).isSome = true
    ∧ ∀ x y,
        ((dense_assem reg elements mats nodes neq dmeTab uel).getD zeroGMat)
            x y
          = cooSum
              ((sparse_assem reg elements mats nodes neq dmeTab uel).getD [])
              x y := by
  refine ⟨?_, ?_, ?_⟩
  · unfold dense_assem
    exact denseLoop_isSome _ _ _ _ hsome
  · unfold sparse_assem
    exact sparseLoop_isSome _ _ _ _ hsome
  · intro x y
    unfold dense_assem sparse_assem
    rw [denseLoop_apply _ _ _ _ hsome, sparseLoop_cooSum _ _ _ _ hsome]
    have h1 : zeroGMat x y = 0 := rfl
    have h2 : cooSum [] x y = 0 := rfl
    rw [h1, h2]

/-- C8: over exact values, the assembled global matrix is invariant
under any permutation of the element processing order: both the dense
scatter-add loop and the compacted sparse COO accumulation yield the
same entries when the element index list is permuted, because every
global entry is a commutative sum of per-element contributions. -/
theorem assembly_order_invariant
    (retr : Nat → Option (List (List Int) × Nat))
    (dmeTab : List (List Int)) (els1 els2 : List Nat)
    (hperm : els1.Perm els2)
    (hsome : ∀ el ∈ els1, (retr el).isSome = true) (x y : Int) :
    ((denseLoop retr dmeTab els1 zeroGMat).getD zeroGMat) x y
        = ((denseLoop retr dmeTab els2 zeroGMat).getD zeroGMat) x y
    ∧ cooSum ((sparseLoop retr dmeTab els1 []).getD []) x y
        = cooSum ((sparseLoop retr dmeTab els2 []).getD []) x y := by
  have hsome2 : ∀ el ∈ els2, (retr el).isSome = true :=
    fun el he => hsome el (hperm.mem_iff.mpr he)
  constructor
  · rw [denseLoop_apply _ _ _ _ hsome, denseLoop_apply _ _ _ _ hsome2,
      (hperm.map (fun el => elContrib retr dmeTab el x y)).sum_eq]
  · rw [sparseLoop_cooSum _ _ _ _ hsome, sparseLoop_cooSum _ _ _ _ hsome2,
      (hperm.map (fun el => elContrib retr dmeTab el x y)).sum_eq]

theorem ibcGet_eqcounter (nodes : List Node) (i l : Nat) (hl : l < 2) :
    ibcGet (eqcounter nodes).2 i l
      = (assignFlat 0 (nodeFlags nodes)).2.getD (2 * i + l) 0 := by
  unfold ibcGet eqcounter
  have hcases : 2 * i + 1 < (assignFlat 0 (nodeFlags nodes)).2.length
      ∨ (assignFlat 0 (nodeFlags nodes)).2.length ≤ 2 * i := by
    rw [assignFlat_length, nodeFlags_length]
    omega
  rw [pairup_getD _ _ hcases]
  interval_cases l
  · simp
  · simp

/-- C4 amended: eqcounter gives a DOF with a nonzero boundary-condition
flag no equation index; its IBC entry keeps the flag value verbatim.
The assemblers skip exactly the operator entries equal to -1, so a
constrained DOF is guaranteed to be skipped only when its flag is -1:
when all nonzero flags are -1 every constrained IBC entry is the
sentinel -1, while any other nonzero flag value is carried into the
operator and scattered as though it were an equation index (see the
counterexample). -/
theorem constrained_flag_amended (nodes : List Node) :
    (∀ i l, l < 2 → flagAt nodes i l ≠ 0 →
      ibcGet (eqcounter nodes).2 i l = flagAt nodes i l)
    ∧ (∀ i l, l < 2 →
        (∀ nd ∈ nodes, (nd.bc0 = 0 ∨ nd.bc0 = -1)
          ∧ (nd.bc1 = 0 ∨ nd.bc1 = -1)) →
        flagAt nodes i l ≠ 0 → ibcGet (eqcounter nodes).2 i l = -1) := by
  have ha : ∀ i l, l < 2 → flagAt nodes i l ≠ 0 →
      ibcGet (eqcounter nodes).2 i l = flagAt nodes i l := by
    intro i l hl hflag
    rw [ibcGet_eqcounter nodes i l hl, assignFlat_constrained]
    · exact nodeFlags_getD nodes i l hl
    · rw [nodeFlags_getD nodes i l hl]
      exact hflag
  refine ⟨ha, ?_⟩
  intro i l hl hwf hflag
  rw [ha i l hl hflag]
  rcases Nat.lt_or_ge i nodes.length with hi | hi
  · have hmem : nodes.getD i default ∈ nodes := by
      rw [List.getD_eq_getElem _ _ hi]
      exact List.getElem_mem hi
    rcases hwf _ hmem with ⟨h0, h1⟩
    unfold flagAt at hflag ⊢
    interval_cases l
    · rw [if_pos rfl] at hflag ⊢
      rcases h0 with h | h
      · exact absurd h hflag
      · exact h
    · rw [if_neg (by decide)] at hflag ⊢
      rcases h1 with h | h
      · exact absurd h hflag
      · exact h
  · exfalso
    apply hflag
    unfold flagAt
    rw [List.getD_eq_default _ _ (by omega)]
    interval_cases l
    · rfl
    · rfl

/-- Replaces, in an assembly operator row, every entry belonging to a
constrained DOF (nonzero boundary-condition flag of the addressed node
component) by the sentinel -1: assembling with this row realizes the
skipping behaviour the claim attributes to the assemblers. -/
def maskRow (nodes : List Node) (e : Element) (nnodes : Nat)
    (row : List Int) : List Int :=
  (List.range row.length).map fun d =>
    if d < 2 * nnodes ∧ flagAt nodes (e.conn.getD (d / 2) 0) (d % 2) ≠ 0 then -1
    else row.getD d 0

def badNodes : List Node := [⟨0, 0, 2, 0⟩, ⟨1, 0, 0, 0⟩]

def springElems : List Element := [⟨5, 0, [0, 1]⟩]

def cMats : List (List Int) := [[1]]

def cReg : RegKernel := fun _ _ _ => []

def onesUel : UelKernel := fun _ _ => (List.replicate 4 (List.replicate 4 1), 4, 5)

def badDme : List (List Int) := ((DME_op badNodes springElems).getD ([], [], 0)).1

def badMaskedDme : List (List Int) :=
  [maskRow badNodes (springElems.getD 0 default) 2 (badDme.getD 0 [])]

/-- C4 counterexample: node 0 carries the malformed flag 2 on its x DOF,
so that DOF is constrained by the claim; eqcounter leaves its IBC entry
at 2, which is not the sentinel, and the dense assembler scatters this
DOF's contributions into global row and column 2: entry (2,2) of the
assembled matrix is 4, whereas assembling with that DOF actually skipped
(its operator entries masked to -1, the behaviour the claim asserts)
yields 1. -/
theorem constrained_scatter_counterexample :
    flagAt badNodes 0 0 = 2
    ∧ ((dense_assem cReg springElems cMats badNodes 3 badDme
        (some onesUel)).getD zeroGMat) 2 2 = 4
    ∧ ((dense_assem cReg springElems cMats badNodes 3 badMaskedDme
        (some onesUel)).getD zeroGMat) 2 2 = 1 := by
  refine ⟨by decide, by decide, by decide⟩

def freeNodes : List Node := [⟨0, 0, 0, 0⟩, ⟨1, 0, 0, 0⟩]

def bigUel : UelKernel := fun _ _ => (List.replicate 6 (List.replicate 6 1), 6, 5)

def freeDme : List (List Int) :=
  ((DME_op freeNodes springElems).getD ([], [], 0)).1

def wIbc : List (Int × Int) :=
  ((DME_op freeNodes springElems).getD ([], [], 0)).2.1

def wIel : List (List Nat) := (IELCON_op freeNodes springElems).getD []

/-- C6 counterexample: an override kernel reporting dof count 6 for a
2-node spring element (whose assembly operator allocated 4 entries) does
not make assembly fail: the dense assembler returns a matrix (no error
value), and the two zero-valued trailing operator entries are read as
equation index 0, so global entry (0,0) receives 9 unit contributions
instead of the single one the 4 allocated DOFs produce. -/
theorem dof_overrun_counterexample :
    (dense_assem cReg springElems cMats freeNodes 4 freeDme
        (some bigUel)).isSome = true
    ∧ ((dense_assem cReg springElems cMats freeNodes 4 freeDme
        (some bigUel)).getD zeroGMat) 0 0 = 9
    ∧ ((dense_assem cReg springElems cMats freeNodes 4 freeDme
        (some onesUel)).getD zeroGMat) 0 0 = 1 := by
  refine ⟨by decide, by decide, by decide⟩

/-- C6 amended: the assemblers perform no dof-count validation at all:
once every element's kernel dispatch succeeds, dense and sparse assembly
both return a result, whatever dof count each kernel reports; a count
exceeding the element's allocated operator entries silently reads the
zero-valued trailing entries of the width-18 row as equation index 0 and
scatters there (see the counterexample). -/
theorem dof_overrun_no_detection (reg : RegKernel) (elements : List Element)
    (mats : List (List Int)) (nodes : List Node) (neq : Nat)
    (dmeTab : List (List Int)) (uel : Option UelKernel)
    (hsome : ∀ el ∈ List.range elements.length,
      (retrK reg elements mats nodes uel el).isSome = true) :
    (dense_assem reg elements mats nodes neq dmeTab uel).isSome = true
    ∧ (sparse_assem reg elements mats nodes neq dmeTab uel).isSome = true := by
  constructor
  · unfold dense_assem
    exact denseLoop_isSome _ _ _ _ hsome
  · unfold sparse_assem
    exact sparseLoop_isSome _ _ _ _ hsome

theorem dof_overrun_no_detection_witness :
    (dense_assem cReg springElems cMats freeNodes 4 freeDme
        (some bigUel)).isSome = true
    ∧ (sparse_assem cReg springElems cMats freeNodes 4 freeDme
        (some bigUel)).isSome = true :=
  dof_overrun_no_detection cReg springElems cMats freeNodes 4 freeDme
    (some bigUel) (by decide)

theorem dense_assem_entry_witness :
    ((dense_assem cReg springElems cMats freeNodes 4 freeDme
        (some onesUel)).getD zeroGMat) 0 0
      = claimSum (retrK cReg springElems cMats freeNodes (some onesUel))
          freeDme springElems.length 0 0 :=
  dense_assem_entry cReg springElems cMats freeNodes 4 freeDme (some onesUel)
    0 0 (by decide) (by decide) (by decide)

theorem dense_sparse_agree_witness :
    ((dense_assem cReg springElems cMats freeNodes 4 freeDme
        (some onesUel)).getD zeroGMat) 0 0
      = cooSum ((sparse_assem cReg springElems cMats freeNodes 4 freeDme
          (some onesUel)).getD []) 0 0 :=
  (dense_sparse_agree cReg springElems cMats freeNodes 4 freeDme (some onesUel)
    (by decide)).2.2 0 0

theorem DME_entry_eq_IBC_witness :
    (freeDme.getD 0 []).getD (2 * 0 + 0) 0
      = ibcGet wIbc ((springElems.getD 0 default).conn.getD 0 0) 0 :=
  DME_entry_eq_IBC freeNodes springElems freeDme wIbc 4 (by decide) 0
    (by decide) 4 2 3 (by decide) 0 0 (by decide) (by decide)

theorem DME_trailing_zero_witness :
    (freeDme.getD 0 []).getD 4 0 = 0 ∧ (wIel.getD 0 []).getD 2 0 = 0 :=
  ⟨(DME_trailing_zero freeNodes springElems freeDme wIbc 4 wIel (by decide)
      (by decide) 0 (by decide) 4 2 3 (by decide)).1 4 (by decide),
   (DME_trailing_zero freeNodes springElems freeDme wIbc 4 wIel (by decide)
      (by decide) 0 (by decide) 4 2 3 (by decide)).2.1 2 (by decide)⟩

def unknownElems : List Element := [⟨99, 0, [0, 1]⟩]

theorem retriever_override_witness :
    retriever cReg unknownElems cMats freeNodes 0 (some onesUel) = none
    ∧ retriever cReg springElems cMats freeNodes 0 (some onesUel)
        = some (onesUel (elcoorOf freeNodes (springElems.getD 0 default) 2)
            (cMats.getD (springElems.getD 0 default).matIdx []))
    ∧ (elcoorOf freeNodes (springElems.getD 0 default) 2).length = 2 :=
  ⟨(retriever_override cReg unknownElems cMats freeNodes 0 onesUel).1
      (by decide),
   ((retriever_override cReg springElems cMats freeNodes 0 onesUel).2 4 2 3
      (by decide)).1,
   ((retriever_override cReg springElems cMats freeNodes 0 onesUel).2 4 2 3
      (by decide)).2⟩

def fixedNodes : List Node := [⟨0, 0, -1, 0⟩]

theorem constrained_flag_amended_witness :
    ibcGet (eqcounter fixedNodes).2 0 0 = flagAt fixedNodes 0 0
    ∧ ibcGet (eqcounter fixedNodes).2 0 0 = -1 :=
  ⟨(constrained_flag_amended fixedNodes).1 0 0 (by decide) (by decide),
   (constrained_flag_amended fixedNodes).2 0 0 (by decide) (by decide)
     (by decide)⟩

def wRetr : Nat → Option (List (List Int) × Nat) :=
  fun el =>
    if el = 0 then some ([[1, 2], [3, 4]], 2) else some ([[5, 6], [7, 8]], 2)

def wDmeTab : List (List Int) := [[0, 1], [1, 0]]

theorem assembly_order_invariant_witness :
    ((denseLoop wRetr wDmeTab [0, 1] zeroGMat).getD zeroGMat) 0 0
        = ((denseLoop wRetr wDmeTab [1, 0] zeroGMat).getD zeroGMat) 0 0
    ∧ cooSum ((sparseLoop wRetr wDmeTab [0, 1] []).getD []) 0 0
        = cooSum ((sparseLoop wRetr wDmeTab [1, 0] []).getD []) 0 0 :=
  assembly_order_invariant wRetr wDmeTab [0, 1] [1, 0]
    (List.Perm.swap 1 0 []) (by decide) 0 0
